import Mathlib

/-!
Shallow embedding of the core of go-find-duplicates: the two-mode file
hashing engine (`service/file_hash.go`), the duplicate grouping store and
its aggregate statistics, the parallelism option (`main.go`), and the
duplicate-removal action (`report.go`).

Files are modelled as snapshots: a byte content (`List Nat`, each byte
below 256) together with the lstat mode bit.  The external hash
algorithms from the Go standard library (`crypto/sha256`,
`hash/crc32`) are abstracted as parameters producing digest bytes; the
hex encoding (`encoding/hex`, lowercase) is modelled concretely.
-/

namespace GoFindDuplicates

/-- `thresholdFileSize = 16 * bytesutil.KIBI` from `service/file_hash.go`. -/
def thresholdFileSize : Nat := 16 * 1024

/-- A filesystem entry as seen by a single consistent snapshot:
its content bytes and whether lstat reports a regular file. -/
structure GoFile where
  content : List Nat
  isRegular : Bool

/-- `entity.FileDigest` (`entity/file_digest.go`): extension, size
(int64 in Go, modelled as `Int`), and the hash string. -/
structure FileDigest where
  FileExtension : String
  FileSize : Int
  FileHash : String
deriving DecidableEq, Repr

/-- One lowercase hex digit, as produced by Go's `encoding/hex`. -/
def hexDigit (n : Nat) : Char :=
  if n < 10 then Char.ofNat (48 + n) else Char.ofNat (87 + n)

/-- `hex.EncodeToString`: lowercase hex encoding of digest bytes. -/
def hexEncode (bytes : List Nat) : String :=
  String.mk (bytes.foldr (fun b acc => hexDigit (b / 16) :: hexDigit (b % 16) :: acc) [])

/-- Go's `File.ReadAt(buf, off)` with `len(buf) = n`: succeeds returning
exactly `n` bytes starting at offset `off`, and returns an error
(short read / EOF) whenever fewer than `n` bytes are available there. -/
def readAt (content : List Nat) (off n : Nat) : Except String (List Nat) :=
  if off + n ≤ content.length then Except.ok ((content.drop off).take n)
  else Except.error "EOF"

/-- `readCrucialBytes` from `service/file_hash.go`: reads the first
`threshold/2` bytes, `threshold/4` bytes at offset `fileSize/2`, and the
last `threshold/4` bytes, concatenated in that order.  `fileSize` is the
size reported by lstat; `content` is what the reads actually see. -/
def readCrucialBytes (content : List Nat) (fileSize : Nat) : Except String (List Nat) :=
  match readAt content 0 (thresholdFileSize / 2) with
  | Except.error e => Except.error ("couldn't read first few bytes (maybe file is corrupted?): " ++ e)
  | Except.ok firstBytes =>
    match readAt content (fileSize / 2) (thresholdFileSize / 4) with
    | Except.error e => Except.error ("couldn't read middle bytes (maybe file is corrupted?): " ++ e)
    | Except.ok middleBytes =>
      match readAt content (fileSize - thresholdFileSize / 4) (thresholdFileSize / 4) with
      | Except.error e => Except.error ("couldn't read end bytes (maybe file is corrupted?): " ++ e)
      | Except.ok lastBytes => Except.ok (firstBytes ++ middleBytes ++ lastBytes)

/-- `fileHash` from `service/file_hash.go`.  `sha256` and `crc32` are the
digest-byte functions of the external Go standard-library hashes.
Mirrors the Go switch: thorough mode reads the whole file with no tag;
fast mode reads the whole file with tag "f" when the size is at most the
threshold, and the crucial bytes with tag "s" otherwise.  The chosen
hash (`lo.TernaryF(isThorough, sha256.New, crc32.NewIEEE)`) is applied
to the bytes read and the digest is hex-encoded after the tag. -/
def fileHash (sha256 crc32 : List Nat → List Nat) (f : GoFile) (isThorough : Bool) :
    Except String String :=
  if !f.isRegular then
    Except.error "can't compute hash of non-regular file"
  else
    let tagAndRead : String × Except String (List Nat) :=
      if isThorough then ("", Except.ok f.content)
      else if f.content.length ≤ thresholdFileSize then ("f", Except.ok f.content)
      else ("s", readCrucialBytes f.content f.content.length)
    match tagAndRead.2 with
    | Except.error e => Except.error ("couldn't calculate hash: " ++ e)
    | Except.ok bytes =>
      Except.ok (tagAndRead.1 ++ hexEncode (if isThorough then sha256 bytes else crc32 bytes))

/-- `GetDigest` from `service/file_hash.go`: lstats the path (always
consistent in the snapshot model), computes the hash, and packages the
digest.  `ext` stands for `utils.GetFileExt path`. -/
def GetDigest (sha256 crc32 : List Nat → List Nat) (ext : String) (f : GoFile)
    (isThorough : Bool) : Except String FileDigest :=
  match fileHash sha256 crc32 f isThorough with
  | Except.error e => Except.error e
  | Except.ok h => Except.ok ⟨ext, (f.content.length : Int), h⟩

/-- `setupParallelismOpt` from `main.go`: with the flag at its default
(zero) the worker count is `NumCPU - 1` when `NumCPU > 1` and otherwise
`1`; a non-zero flag value is used as given. -/
def getParallelism (p : Nat) (numCPU : Nat) : Nat :=
  if p = 0 then (if numCPU > 1 then numCPU - 1 else 1) else p

/-- A grouping store in iteration order: each group is a digest together
with the paths that share it, as `entity.DigestToFiles` yields them. -/
abbrev Store := List (FileDigest × List String)

/-- Modelled from the spec: `entity.DigestToFiles.Set` is not under
`src/`.  Per the spec the store is an order-preserving mapping: the
first time a digest is seen it is appended to the iteration-order list;
subsequent files with the same digest append to that digest's path
list. -/
def addToStore (store : Store) (d : FileDigest) (p : String) : Store :=
  match store with
  | [] => [(d, [p])]
  | g :: rest => if g.1 = d then (g.1, g.2 ++ [p]) :: rest else g :: addToStore rest d p

/-- The store built from a stream of `(digest, path)` insertion events,
one per successfully hashed file. -/
def buildStore (events : List (FileDigest × String)) : Store :=
  events.foldl (fun s e => addToStore s e.1 e.2) []

/-- The path list the store associates to a digest (`[]` when the
digest has no key), reading the first matching group. -/
def pathsOf (store : Store) (d : FileDigest) : List String :=
  match store with
  | [] => []
  | g :: rest => if g.1 = d then g.2 else pathsOf rest d

/-- Modelled from the spec: the materialization step of
`service.FindDuplicates` (not under `src/`) that populates the
externally visible structure only with digests shared by at least two
paths. -/
def duplicateGroups (store : Store) : Store :=
  store.filter (fun g => 2 ≤ g.2.length)

/-- Modelled from the spec: the Aggregator of `service.FindDuplicates`
(not under `src/`) folds the reported groups into summary statistics,
adding `len(paths) - 1` to the duplicate count and
`digest.size * (len(paths) - 1)` to the savings for each group
(Go `int64` arithmetic, modelled as `Int`). -/
def aggregateStats (groups : Store) : Int × Int :=
  groups.foldl
    (fun acc g => (acc.1 + ((g.2.length : Int) - 1), acc.2 + g.1.FileSize * ((g.2.length : Int) - 1)))
    (0, 0)

/-- The outcome of one `os.Remove` call: `none` is success, `some e`
is the error message for that path. -/
abbrev RemoveOracle := String → Option String

/-- Removal of every path of a list: each path gets an `os.Remove` call
(first component: paths attempted, in order) and each failure is
appended to the `multierr` accumulator (second component: the errors,
in order).  A failure does not stop the following calls. -/
def removeAll (rm : RemoveOracle) : List String → List String × List String
  | [] => ([], [])
  | p :: rest =>
    let r := removeAll rm rest
    (p :: r.1, (match rm p with | none => [] | some e => [e]) ++ r.2)

/-- The body of `RemoveDuplicates`'s inner loop (`report.go`):
`for i, path := range paths { if i > 0 { err = multierr.Append(err, os.Remove(path)) } }`
— the path at index 0 is skipped and every later path is removed. -/
def removeGroup (rm : RemoveOracle) (paths : List String) : List String × List String :=
  match paths with
  | [] => ([], [])
  | _ :: rest => removeAll rm rest

/-- `RemoveDuplicates` from `report.go`: iterates the groups of the
store in order, applying the inner loop to each group's path list and
threading the `multierr` accumulator across groups.  Returns the paths
on which `os.Remove` was called and the aggregated errors. -/
def RemoveDuplicates (rm : RemoveOracle) (store : Store) : List String × List String :=
  store.foldl (fun acc g => (acc.1 ++ (removeGroup rm g.2).1, acc.2 ++ (removeGroup rm g.2).2))
    ([], [])

/-- The index intervals `[offset, offset + length)` of the three
`ReadAt` calls of `readCrucialBytes`: first `threshold/2` bytes from
offset `0`, `threshold/4` bytes from offset `fileSize/2`, and
`threshold/4` bytes from offset `fileSize - threshold/4`. -/
def crucialIntervals (fileSize : Nat) : List (Finset Nat) :=
  [Finset.Ico 0 (0 + thresholdFileSize / 2),
   Finset.Ico (fileSize / 2) (fileSize / 2 + thresholdFileSize / 4),
   Finset.Ico (fileSize - thresholdFileSize / 4)
     (fileSize - thresholdFileSize / 4 + thresholdFileSize / 4)]

/-- A concrete digest used for concrete store instances. -/
def d1ex : FileDigest := ⟨"txt", 10, "f0abc123"⟩

/-- A second concrete digest, distinct from `d1ex`. -/
def d2ex : FileDigest := ⟨"bin", 5, "f0def456"⟩

/-! ### Helper lemmas about the removal action -/

theorem removeAll_eq (rm : RemoveOracle) (l : List String) :
    removeAll rm l = (l, l.filterMap rm) := by
  induction l with
  | nil => rfl
  | cons p rest ih =>
    simp only [removeAll, ih, List.filterMap_cons]
    cases rm p <;> simp

theorem removeGroup_eq (rm : RemoveOracle) (paths : List String) :
    removeGroup rm paths = (paths.drop 1, (paths.drop 1).filterMap rm) := by
  cases paths with
  | nil => rfl
  | cons p rest => simp [removeGroup, removeAll_eq]

theorem removeDuplicates_go (rm : RemoveOracle) (store : Store) (a b : List String) :
    store.foldl (fun acc g => (acc.1 ++ (removeGroup rm g.2).1, acc.2 ++ (removeGroup rm g.2).2))
      (a, b) =
    (a ++ store.flatMap (fun g => g.2.drop 1),
     b ++ (store.flatMap (fun g => g.2.drop 1)).filterMap rm) := by
  induction store generalizing a b with
  | nil => simp
  | cons g rest ih =>
    simp only [List.foldl_cons]
    rw [ih]
    simp [removeGroup_eq, List.filterMap_append, List.append_assoc]

theorem removeDuplicates_spec (rm : RemoveOracle) (store : Store) :
    RemoveDuplicates rm store =
      (store.flatMap (fun g => g.2.drop 1),
       (store.flatMap (fun g => g.2.drop 1)).filterMap rm) := by
  simpa [RemoveDuplicates] using removeDuplicates_go rm store [] []

/-! ### Helper lemmas about the grouping store -/

theorem pathsOf_addToStore_self (store : Store) (d : FileDigest) (p : String) :
    pathsOf (addToStore store d p) d = pathsOf store d ++ [p] := by
  induction store with
  | nil => simp [addToStore, pathsOf]
  | cons g rest ih =>
    by_cases h : g.1 = d
    · simp [addToStore, pathsOf, h]
    · simp [addToStore, pathsOf, h, ih]

theorem pathsOf_addToStore_ne (store : Store) (d d' : FileDigest) (p : String) (h : d' ≠ d) :
    pathsOf (addToStore store d p) d' = pathsOf store d' := by
  have hdd : ¬(d = d') := fun he => h he.symm
  induction store with
  | nil => simp [addToStore, pathsOf, hdd]
  | cons g rest ih =>
    by_cases hg : g.1 = d
    · have hgd : ¬(g.1 = d') := by rw [hg]; exact hdd
      simp [addToStore, if_pos hg, pathsOf, hgd]
    · simp [addToStore, if_neg hg, pathsOf, ih]

theorem pathsOf_length_foldl (events : List (FileDigest × String)) (d : FileDigest) :
    ∀ store : Store,
      (pathsOf (events.foldl (fun s e => addToStore s e.1 e.2) store) d).length =
        (pathsOf store d).length + (events.filter (fun e => e.1 == d)).length := by
  induction events with
  | nil => intro store; simp
  | cons e rest ih =>
    intro store
    rw [List.foldl_cons, ih (addToStore store e.1 e.2)]
    by_cases h : e.1 = d
    · subst h
      rw [pathsOf_addToStore_self]
      simp [List.filter_cons]
      omega
    · rw [pathsOf_addToStore_ne store e.1 d e.2 (fun he => h he.symm)]
      simp [List.filter_cons, h]

/-- In the store built from the event stream, a digest's path list has
one path per insertion event carrying that digest. -/
theorem pathsOf_buildStore_length (events : List (FileDigest × String)) (d : FileDigest) :
    (pathsOf (buildStore events) d).length = (events.filter (fun e => e.1 == d)).length := by
  simpa [buildStore, pathsOf] using pathsOf_length_foldl events d []

theorem mem_keys_addToStore (store : Store) (d x : FileDigest) (p : String)
    (h : x ∈ (addToStore store d p).map Prod.fst) : x = d ∨ x ∈ store.map Prod.fst := by
  induction store with
  | nil => simpa [addToStore] using h
  | cons g rest ih =>
    by_cases hg : g.1 = d
    · simp only [addToStore, if_pos hg, List.map_cons, List.mem_cons] at h ⊢
      tauto
    · simp only [addToStore, if_neg hg, List.map_cons, List.mem_cons] at h ⊢
      rcases h with h | h
      · tauto
      · rcases ih h with h' | h' <;> tauto

theorem keys_nodup_addToStore (store : Store) (d : FileDigest) (p : String)
    (h : (store.map Prod.fst).Nodup) : ((addToStore store d p).map Prod.fst).Nodup := by
  induction store with
  | nil => simp [addToStore]
  | cons g rest ih =>
    simp only [List.map_cons, List.nodup_cons] at h
    by_cases hg : g.1 = d
    · simp only [addToStore, if_pos hg, List.map_cons, List.nodup_cons]
      exact h
    · simp only [addToStore, if_neg hg, List.map_cons, List.nodup_cons]
      refine ⟨fun hmem => ?_, ih h.2⟩
      rcases mem_keys_addToStore rest d g.1 p hmem with h' | h'
      · exact hg h'
      · exact h.1 h'

theorem keys_nodup_buildStore (events : List (FileDigest × String)) :
    ((buildStore events).map Prod.fst).Nodup := by
  suffices h : ∀ store : Store, (store.map Prod.fst).Nodup →
      ((events.foldl (fun s e => addToStore s e.1 e.2) store).map Prod.fst).Nodup by
    simpa [buildStore] using h [] (by simp)
  induction events with
  | nil => intro store hs; simpa using hs
  | cons e rest ih =>
    intro store hs
    exact ih (addToStore store e.1 e.2) (keys_nodup_addToStore store e.1 e.2 hs)

theorem pathsOf_of_mem (store : Store) (g : FileDigest × List String)
    (hmem : g ∈ store) (hnd : (store.map Prod.fst).Nodup) : pathsOf store g.1 = g.2 := by
  induction store with
  | nil => cases hmem
  | cons a rest ih =>
    simp only [List.map_cons, List.nodup_cons] at hnd
    rcases List.mem_cons.mp hmem with h | h
    · subst h
      simp [pathsOf]
    · have hne : a.1 ≠ g.1 := by
        intro he
        exact hnd.1 (he ▸ List.mem_map_of_mem Prod.fst h)
      simp only [pathsOf, if_neg hne]
      exact ih h hnd.2

theorem addToStore_nonempty (store : Store) (d : FileDigest) (p : String)
    (h : ∀ g ∈ store, g.2 ≠ []) : ∀ g ∈ addToStore store d p, g.2 ≠ [] := by
  induction store with
  | nil => simp [addToStore]
  | cons a rest ih =>
    intro g hg
    by_cases ha : a.1 = d
    · simp only [addToStore, if_pos ha, List.mem_cons] at hg
      rcases hg with hg | hg
      · subst hg; simp
      · exact h g (List.mem_cons_of_mem a hg)
    · simp only [addToStore, if_neg ha, List.mem_cons] at hg
      rcases hg with hg | hg
      · subst hg; exact h _ (List.mem_cons_self _ rest)
      · exact ih (fun g' hg' => h g' (List.mem_cons_of_mem a hg')) g hg

theorem buildStore_nonempty (events : List (FileDigest × String)) :
    ∀ g ∈ buildStore events, g.2 ≠ [] := by
  suffices h : ∀ store : Store, (∀ g ∈ store, g.2 ≠ []) →
      ∀ g ∈ events.foldl (fun s e => addToStore s e.1 e.2) store, g.2 ≠ [] by
    simpa [buildStore] using h [] (by simp)
  induction events with
  | nil => intro store hs; simpa using hs
  | cons e rest ih =>
    intro store hs
    exact ih (addToStore store e.1 e.2) (addToStore_nonempty store e.1 e.2 hs)

/-! ### Helper lemmas about hashing and aggregation -/

theorem readCrucialBytes_ok (content : List Nat) (fileSize : Nat)
    (h1 : 0 + thresholdFileSize / 2 ≤ content.length)
    (h2 : fileSize / 2 + thresholdFileSize / 4 ≤ content.length)
    (h3 : fileSize - thresholdFileSize / 4 + thresholdFileSize / 4 ≤ content.length) :
    readCrucialBytes content fileSize =
      Except.ok (content.take (thresholdFileSize / 2) ++
        (content.drop (fileSize / 2)).take (thresholdFileSize / 4) ++
        (content.drop (fileSize - thresholdFileSize / 4)).take (thresholdFileSize / 4)) := by
  unfold readCrucialBytes readAt
  rw [if_pos h1, if_pos h2, if_pos h3]
  simp

theorem aggregateStats_go (groups : Store) (a b : Int) :
    groups.foldl
      (fun acc g =>
        (acc.1 + ((g.2.length : Int) - 1), acc.2 + g.1.FileSize * ((g.2.length : Int) - 1)))
      (a, b) =
    (a + (groups.map (fun g => (g.2.length : Int) - 1)).sum,
     b + (groups.map (fun g => g.1.FileSize * ((g.2.length : Int) - 1))).sum) := by
  induction groups generalizing a b with
  | nil => simp
  | cons g rest ih =>
    simp only [List.foldl_cons, List.map_cons, List.sum_cons]
    rw [ih]
    simp only [Prod.mk.injEq]
    constructor <;> ring

theorem aggregateStats_eq (groups : Store) :
    aggregateStats groups =
      ((groups.map (fun g => (g.2.length : Int) - 1)).sum,
       (groups.map (fun g => g.1.FileSize * ((g.2.length : Int) - 1))).sum) := by
  simpa [aggregateStats] using aggregateStats_go groups 0 0

/-! ### Claim theorems -/

/-- C8: when the parallelism option is left at its default (zero), the
worker count is the number of available processors minus one when that
number is greater than one, and one otherwise — that is,
`max (numCPU - 1) 1` — and is always at least one. -/
theorem getParallelism_default (numCPU : Nat) :
    getParallelism 0 numCPU = max (numCPU - 1) 1 ∧ 1 ≤ getParallelism 0 numCPU := by
  unfold getParallelism
  by_cases h : numCPU > 1
  · rw [if_pos rfl, if_pos h]; omega
  · rw [if_pos rfl, if_neg h]; omega

/-- C4: for every finalized grouping store, the duplicate count computed
by the aggregator equals the sum over all reported groups of
`len(paths) - 1`, and the savings equal the sum over all reported groups
of `digest.size * (len(paths) - 1)`. -/
theorem aggregateStats_sums (events : List (FileDigest × String)) :
    (aggregateStats (duplicateGroups (buildStore events))).1 =
      ((duplicateGroups (buildStore events)).map (fun g => (g.2.length : Int) - 1)).sum ∧
    (aggregateStats (duplicateGroups (buildStore events))).2 =
      ((duplicateGroups (buildStore events)).map
        (fun g => g.1.FileSize * ((g.2.length : Int) - 1))).sum := by
  rw [aggregateStats_eq]
  exact ⟨rfl, rfl⟩

/-- C3: for a file larger than the 16 KiB threshold, the bytes hashed in
fast mode are exactly the first 8192 bytes, then the 4096 bytes starting
at offset `size / 2`, then the last 4096 bytes, and exactly 16384 bytes
are produced in total. -/
theorem readCrucialBytes_sampled (content : List Nat)
    (h : thresholdFileSize < content.length) :
    readCrucialBytes content content.length =
      Except.ok (content.take 8192 ++ (content.drop (content.length / 2)).take 4096 ++
        content.drop (content.length - 4096)) ∧
    ∀ bs, readCrucialBytes content content.length = Except.ok bs → bs.length = 16384 := by
  have h' : 16384 < content.length := by
    have := h; simp only [thresholdFileSize] at this; omega
  have hlast : (content.drop (content.length - 4096)).take 4096 =
      content.drop (content.length - 4096) :=
    List.take_of_length_le (by rw [List.length_drop]; omega)
  have hok : readCrucialBytes content content.length =
      Except.ok (content.take 8192 ++ (content.drop (content.length / 2)).take 4096 ++
        content.drop (content.length - 4096)) := by
    rw [readCrucialBytes_ok content content.length
      (by simp only [thresholdFileSize]; omega)
      (by simp only [thresholdFileSize]; omega)
      (by simp only [thresholdFileSize]; omega)]
    have ht2 : thresholdFileSize / 2 = 8192 := rfl
    have ht4 : thresholdFileSize / 4 = 4096 := rfl
    rw [ht2, ht4, hlast]
  refine ⟨hok, fun bs hbs => ?_⟩
  rw [hok] at hbs
  rw [Except.ok.injEq] at hbs
  subst hbs
  simp only [List.length_append, List.length_take, List.length_drop]
  omega

/-- C3 witness: a 16385-byte file is sampled exactly as stated. -/
theorem readCrucialBytes_sampled_witness :
    thresholdFileSize < (List.replicate 16385 (0 : Nat)).length ∧
    readCrucialBytes (List.replicate 16385 (0 : Nat)) (List.replicate 16385 (0 : Nat)).length =
      Except.ok ((List.replicate 16385 (0 : Nat)).take 8192 ++
        ((List.replicate 16385 (0 : Nat)).drop ((List.replicate 16385 (0 : Nat)).length / 2)).take 4096 ++
        (List.replicate 16385 (0 : Nat)).drop ((List.replicate 16385 (0 : Nat)).length - 4096)) :=
  ⟨by rw [List.length_replicate]; decide,
    (readCrucialBytes_sampled _ (by rw [List.length_replicate]; decide)).1⟩

/-- C9: for a file larger than 16384 bytes whose content length matches
the stat'd size, all three `ReadAt` calls lie within the file
(`offset + length ≤ size`), so the short-read branches are unreachable
and `readCrucialBytes` returns the 16384 sampled bytes. -/
theorem readCrucialBytes_in_bounds (content : List Nat) (fileSize : Nat)
    (hsize : fileSize = content.length) (h : 16384 < fileSize) :
    0 + 8192 ≤ content.length ∧
    fileSize / 2 + 4096 ≤ content.length ∧
    fileSize - 4096 + 4096 ≤ content.length ∧
    ∃ bs, readCrucialBytes content fileSize = Except.ok bs ∧ bs.length = 16384 := by
  subst hsize
  refine ⟨by omega, by omega, by omega, ?_⟩
  obtain ⟨hok, hlen⟩ := readCrucialBytes_sampled content
    (by simp only [thresholdFileSize]; omega)
  exact ⟨_, hok, hlen _ hok⟩

/-- C9 witness: a 16386-byte file is read fully in bounds. -/
theorem readCrucialBytes_in_bounds_witness :
    (16386 : Nat) = (List.replicate 16386 (1 : Nat)).length ∧ 16384 < 16386 ∧
    ∃ bs, readCrucialBytes (List.replicate 16386 (1 : Nat)) 16386 = Except.ok bs ∧
      bs.length = 16384 :=
  ⟨by rw [List.length_replicate], by omega,
    (readCrucialBytes_in_bounds (List.replicate 16386 (1 : Nat)) 16386
      (by rw [List.length_replicate]) (by omega)).2.2.2⟩

/-- C7: for a file larger than the 16 KiB threshold, the three sampled
index regions of `readCrucialBytes` are pairwise disjoint. -/
theorem crucialIntervals_disjoint (fileSize : Nat) (h : 16384 < fileSize) :
    (crucialIntervals fileSize).Pairwise Disjoint := by
  have hd : ∀ a b c d : Nat, b ≤ c → Disjoint (Finset.Ico a b) (Finset.Ico c d) := by
    intro a b c d hbc
    rw [Finset.disjoint_left]
    intro x hx hx'
    rw [Finset.mem_Ico] at hx hx'
    omega
  have ht2 : thresholdFileSize / 2 = 8192 := rfl
  have ht4 : thresholdFileSize / 4 = 4096 := rfl
  simp only [crucialIntervals, ht2, ht4, List.pairwise_cons, List.mem_cons,
    List.mem_singleton, List.not_mem_nil, List.Pairwise.nil]
  refine ⟨?_, ?_, ?_⟩
  · intro s hs
    rcases hs with hs | hs | hs
    · subst hs; exact hd _ _ _ _ (by omega)
    · subst hs; exact hd _ _ _ _ (by omega)
    · cases hs
  · intro s hs
    rcases hs with hs | hs
    · subst hs; exact hd _ _ _ _ (by omega)
    · cases hs
  · simp

/-- C7 witness: the three regions of a 16385-byte file are pairwise
disjoint. -/
theorem crucialIntervals_disjoint_witness :
    16384 < 16385 ∧ (crucialIntervals 16385).Pairwise Disjoint :=
  ⟨by omega, crucialIntervals_disjoint 16385 (by omega)⟩

/-- C2: for a regular file, the produced hash string is: in thorough
mode the lowercase hex SHA-256 of the whole content with no tag; in fast
mode with size at most the 16 KiB threshold, `"f"` followed by the
lowercase hex CRC32 of the whole content; in fast mode with size above
the threshold, `"s"` followed by the lowercase hex CRC32 of the sampled
crucial bytes. -/
theorem fileHash_modes (sha256 crc32 : List Nat → List Nat) (f : GoFile)
    (hreg : f.isRegular = true) :
    fileHash sha256 crc32 f true = Except.ok (hexEncode (sha256 f.content)) ∧
    (f.content.length ≤ thresholdFileSize →
      fileHash sha256 crc32 f false = Except.ok ("f" ++ hexEncode (crc32 f.content))) ∧
    (thresholdFileSize < f.content.length →
      ∀ bs, readCrucialBytes f.content f.content.length = Except.ok bs →
        fileHash sha256 crc32 f false = Except.ok ("s" ++ hexEncode (crc32 bs))) := by
  refine ⟨?_, ?_, ?_⟩
  · simp [fileHash, hreg]
  · intro hle
    simp [fileHash, hreg, hle]
  · intro hlt bs hbs
    simp [fileHash, hreg, not_le.mpr hlt, hbs]

/-- C2 witness: a regular 3-byte file in fast mode gets the `"f"` tag
and the hex CRC32 of its whole content. -/
theorem fileHash_modes_witness :
    (GoFile.mk [1, 2, 3] true).isRegular = true ∧
    (GoFile.mk [1, 2, 3] true).content.length ≤ thresholdFileSize ∧
    fileHash (fun _ => [0]) (fun b => [b.length % 256]) (GoFile.mk [1, 2, 3] true) false =
      Except.ok ("f" ++ hexEncode ((fun b : List Nat => [b.length % 256]) [1, 2, 3])) :=
  ⟨rfl, by decide,
    (fileHash_modes (fun _ => [0]) (fun b => [b.length % 256]) (GoFile.mk [1, 2, 3] true)
      rfl).2.1 (by decide)⟩

/-- C6: the digest operation errors on every non-regular file, and a
`FileDigest` is produced only when lstat reports a regular file. -/
theorem GetDigest_regular_only (sha256 crc32 : List Nat → List Nat) (ext : String)
    (f : GoFile) (isThorough : Bool) :
    (f.isRegular = false →
      GetDigest sha256 crc32 ext f isThorough =
        Except.error "can't compute hash of non-regular file") ∧
    (∀ d, GetDigest sha256 crc32 ext f isThorough = Except.ok d → f.isRegular = true) := by
  constructor
  · intro h
    simp [GetDigest, fileHash, h]
  · intro d hd
    cases hr : f.isRegular with
    | true => rfl
    | false => simp [GetDigest, fileHash, hr] at hd

/-- C6 witness: a non-regular entry is rejected with the descriptive
error. -/
theorem GetDigest_regular_only_witness :
    (GoFile.mk [1, 2] false).isRegular = false ∧
    GetDigest (fun _ => []) (fun _ => []) "txt" (GoFile.mk [1, 2] false) true =
      Except.error "can't compute hash of non-regular file" :=
  ⟨rfl, (GetDigest_regular_only (fun _ => []) (fun _ => []) "txt" (GoFile.mk [1, 2] false)
    true).1 rfl⟩

/-- C1 counterexample: on the group stored as
`["/a/2.txt", "/a/1.txt"]`, `RemoveDuplicates` calls `os.Remove` on
`/a/1.txt` (the lexicographically first path) and not on `/a/2.txt` —
the opposite of the claimed behaviour. -/
theorem removeDuplicates_not_lexicographic :
    (RemoveDuplicates (fun _ => none) [(d1ex, ["/a/2.txt", "/a/1.txt"])]).1 = ["/a/1.txt"] ∧
    "/a/2.txt" ∉ (RemoveDuplicates (fun _ => none) [(d1ex, ["/a/2.txt", "/a/1.txt"])]).1 ∧
    "/a/1.txt" ∈ (RemoveDuplicates (fun _ => none) [(d1ex, ["/a/2.txt", "/a/1.txt"])]).1 := by
  refine ⟨rfl, ?_, ?_⟩ <;> decide

/-- C1 (amended): for every group, removal retains the path at index 0
of the group's stored list and calls `os.Remove` on every other path;
every deletion error is collected into the aggregated error and a
failure does not stop later deletions (the calls made are independent of
the outcomes). -/
theorem RemoveDuplicates_keeps_first_aggregates (rm : RemoveOracle) (store : Store) :
    (RemoveDuplicates rm store).1 = store.flatMap (fun g => g.2.drop 1) ∧
    (RemoveDuplicates rm store).2 =
      (store.flatMap (fun g => g.2.drop 1)).filterMap rm := by
  rw [removeDuplicates_spec]
  exact ⟨rfl, rfl⟩

theorem mem_of_head_some {l : List String} {p : String} (h : l.head? = some p) : p ∈ l := by
  cases l with
  | nil => cases h
  | cons q t =>
    simp only [List.head?_cons, Option.some.injEq] at h
    subst h
    exact List.mem_cons_self q t

theorem head_not_mem_dropped (store : Store) :
    ((store.map (fun g => g.2)).flatten).Nodup →
    ∀ g ∈ store, ∀ p, g.2.head? = some p →
      p ∉ store.flatMap (fun gg => gg.2.drop 1) := by
  induction store with
  | nil => intro _ g hg; cases hg
  | cons a rest ih =>
    intro hnd g hg p hp hmem
    simp only [List.map_cons, List.flatten_cons, List.nodup_append] at hnd
    obtain ⟨hna, hnr, hdisj⟩ := hnd
    rw [List.flatMap_cons, List.mem_append] at hmem
    rcases List.mem_cons.mp hg with hga | hga
    · subst hga
      rcases hmem with hm | hm
      · cases hl : g.2 with
        | nil => rw [hl] at hp; cases hp
        | cons q t =>
          rw [hl] at hp
          simp only [List.head?_cons, Option.some.injEq] at hp
          subst hp
          rw [hl] at hm hna
          simp only [List.drop_one, List.tail_cons] at hm
          exact (List.nodup_cons.mp hna).1 hm
      · have hpr : p ∈ (rest.map (fun g => g.2)).flatten := by
          rcases List.mem_flatMap.mp hm with ⟨b, hb, hpb⟩
          exact List.mem_flatten.mpr ⟨b.2, List.mem_map_of_mem _ hb, List.mem_of_mem_drop hpb⟩
        exact hdisj (mem_of_head_some hp) hpr
    · rcases hmem with hm | hm
      · have hpa : p ∈ a.2 := List.mem_of_mem_drop hm
        have hpr : p ∈ (rest.map (fun g => g.2)).flatten :=
          List.mem_flatten.mpr ⟨g.2, List.mem_map_of_mem _ hga, mem_of_head_some hp⟩
        exact hdisj hpa hpr
      · exact ih hnr g hga p hp hm

/-- C10: when no path occurs twice across the store, `RemoveDuplicates`
never calls `os.Remove` on the first element of any group's path list
(in whatever order the store holds it), and the set of paths it removes
does not depend on which deletions fail. -/
theorem RemoveDuplicates_head_retained (rm rm' : RemoveOracle) (store : Store)
    (hnd : ((store.map (fun g => g.2)).flatten).Nodup) :
    (RemoveDuplicates rm store).1 = (RemoveDuplicates rm' store).1 ∧
    ∀ g ∈ store, ∀ p, g.2.head? = some p → p ∉ (RemoveDuplicates rm store).1 := by
  constructor
  · rw [(removeDuplicates_spec rm store), (removeDuplicates_spec rm' store)]
  · intro g hg p hp
    rw [removeDuplicates_spec]
    exact head_not_mem_dropped store hnd g hg p hp

/-- C10 witness: on a concrete two-group store where every deletion
fails, the head path `"a"` of the first group is not removed. -/
theorem RemoveDuplicates_head_retained_witness :
    ((([(d1ex, ["a", "b"]), (d2ex, ["c", "d"])] : Store).map (fun g => g.2)).flatten).Nodup ∧
    "a" ∉ (RemoveDuplicates (fun _ => some "fail")
      [(d1ex, ["a", "b"]), (d2ex, ["c", "d"])]).1 :=
  ⟨by decide,
    (RemoveDuplicates_head_retained (fun _ => some "fail") (fun _ => none)
        [(d1ex, ["a", "b"]), (d2ex, ["c", "d"])] (by decide)).2
      (d1ex, ["a", "b"]) (by decide) "a" rfl⟩

/-- C5: every group of `duplicateGroups` has at least two paths, a
digest inserted for exactly one file never appears in
`duplicateGroups`, and every path list in the store is non-empty while
its key exists. -/
theorem duplicateGroups_min_two (events : List (FileDigest × String)) :
    (∀ g ∈ duplicateGroups (buildStore events), 2 ≤ g.2.length) ∧
    (∀ d : FileDigest, (events.filter (fun e => e.1 == d)).length = 1 →
      ∀ g ∈ duplicateGroups (buildStore events), g.1 ≠ d) ∧
    (∀ g ∈ buildStore events, g.2 ≠ []) := by
  refine ⟨?_, ?_, buildStore_nonempty events⟩
  · intro g hg
    rw [duplicateGroups, List.mem_filter] at hg
    simpa using hg.2
  · intro d hd g hg hgd
    subst hgd
    rw [duplicateGroups, List.mem_filter] at hg
    obtain ⟨hmem, hp⟩ := hg
    have h2 : 2 ≤ g.2.length := by simpa using hp
    have hlen := pathsOf_buildStore_length events g.1
    rw [pathsOf_of_mem (buildStore events) g hmem (keys_nodup_buildStore events)] at hlen
    omega

/-- C5 witness: with insertion events `(d1ex, a), (d1ex, b), (d2ex, c)`,
the singleton digest `d2ex` is not the key of the reported group. -/
theorem duplicateGroups_min_two_witness :
    (([(d1ex, "a"), (d1ex, "b"), (d2ex, "c")].filter
      (fun e => e.1 == d2ex)).length = 1) ∧
    (d1ex, ["a", "b"]) ∈ duplicateGroups (buildStore [(d1ex, "a"), (d1ex, "b"), (d2ex, "c")]) ∧
    d1ex ≠ d2ex :=
  ⟨by decide, by decide,
    (duplicateGroups_min_two [(d1ex, "a"), (d1ex, "b"), (d2ex, "c")]).2.1 d2ex (by decide)
      (d1ex, ["a", "b"]) (by decide)⟩

end GoFindDuplicates
